import Mathlib

/-!
# Verification of the CoreMahalanobis online outlier detector

Shallow embedding, in exact rational arithmetic, of the `CoreMahalanobis`
class documented in the repository (constructor and `_get_preds`).  Floating
point is modelled by `ℚ`; `numpy` square root (used only to build clip
bounds, whose numeric values no claim depends on) is abstracted as a function
parameter `sqrtQ`; the `scipy.linalg.eigh` eigendecomposition is abstracted
as an oracle returning the eigenvector matrix, or `none` when it fails on
non-finite input (`NumericalError`).
-/

namespace Mahalanobis

/-- A length-`p` feature vector. -/
abbrev Vec (p : ℕ) := Fin p → ℚ

/-- The nine attributes of the `CoreMahalanobis` object.

`C` is `none` while the attribute still holds the integer `0` it was
initialised with (the code tests `type(self.C) == int and self.C == 0`);
after the first call it is `some` of the stored covariance matrix. -/
structure Detector (p : ℕ) where
  threshold : ℚ
  n_components : ℕ
  max_n : ℤ
  n_stdev : ℚ
  start_clip : ℤ
  clip : Option (Vec p × Vec p)
  mean : Vec p
  C : Option (Matrix (Fin p) (Fin p) ℚ)
  n : ℕ

/-- Constructor `CoreMahalanobis.__init__`: stores the hyperparameters and initialises
`clip = None`, `mean = 0`, `C = 0` (integer sentinel), `n = 0`.  The source
constructor performs no validation of its arguments. -/
def Detector.init (p : ℕ) (threshold : ℚ) (n_components : ℕ) (n_stdev : ℚ)
    (start_clip : ℤ) (max_n : ℤ) : Detector p :=
  { threshold := threshold
    n_components := n_components
    max_n := max_n
    n_stdev := n_stdev
    start_clip := start_clip
    clip := none
    mean := 0
    C := none
    n := 0 }

/-- Lines 128-131: `if self.max_n>0: n = min(self.n,self.max_n) else: n = self.n` —
the effective sample count substituted for `n` in every update formula. -/
def effN (p : ℕ) (s : Detector p) : ℤ :=
  if 0 < s.max_n then min (s.n : ℤ) s.max_n else (s.n : ℤ)

/-- Function `np.clip(x, l, u)` applied to one row: each feature is clamped to
`[l j, u j]` (minimum of the maximum, as numpy does). -/
def clipRow (p : ℕ) (l u x : Vec p) : Vec p :=
  fun j => min (max (x j) (l j)) (u j)

/-- Lines 133-137: `Xclip = np.clip(X,self.clip[0],self.clip[1])` when
`self.n > self.start_clip`, else `Xclip = X`.  When the branch is taken
with `clip = None` the Python raises `TypeError`; that case is unreachable
whenever `start_clip ≥ 0`, and we let it return `X` unchanged. -/
def clipBatch (p : ℕ) (s : Detector p) (X : List (Vec p)) : List (Vec p) :=
  if s.start_clip < (s.n : ℤ) then
    match s.clip with
    | some lu => X.map (clipRow p lu.1 lu.2)
    | none => X
  else X

/-- Line 140: `roll_partial_means[i] = Xclip.cumsum(axis=0)[i]/(i+1)`: the mean of the
first `i+1` rows of the (clipped) batch. -/
def rollMeans (p : ℕ) (Xc : List (Vec p)) (i : ℕ) : Vec p :=
  (((i : ℚ) + 1))⁻¹ • (Xc.take (i + 1)).sum

/-- Line 142: `new_means[i] = self.mean + ((i+1)/(n+i+1))*(roll_partial_means[i]-self.mean)`. -/
def newMeans (p : ℕ) (n : ℚ) (mean0 : Vec p) (Xc : List (Vec p)) (i : ℕ) : Vec p :=
  mean0 + (((i : ℚ) + 1) / (n + (i : ℚ) + 1)) • (rollMeans p Xc i - mean0)

/-- Lines 143-145: `new_means_offset[i]`, the tracked mean just before row `i` of the batch
is absorbed (`self.mean` for row 0, `new_means[i-1]` afterwards). -/
def meanAt (p : ℕ) (n : ℚ) (mean0 : Vec p) (Xc : List (Vec p)) : ℕ → Vec p
  | 0 => mean0
  | i + 1 => newMeans p n mean0 Xc i

/-- Line 148: `B[i] = ((n+i)/(n+i+1)) * outer(Xclip[i]-new_means_offset[i])`, the
rank-one covariance increment of row `i` (line 148). -/
def covIncr (p : ℕ) (n : ℚ) (mean0 : Vec p) (Xc : List (Vec p)) (i : ℕ) :
    Matrix (Fin p) (Fin p) ℚ :=
  ((n + (i : ℚ)) / (n + (i : ℚ) + 1)) •
    Matrix.vecMulVec (Xc.getD i 0 - meanAt p n mean0 Xc i)
      (Xc.getD i 0 - meanAt p n mean0 Xc i)

/-- Line 149:
`cov_batch = (n-1.)/(n+max(1,nb-1.))*self.C + 1./(n+max(1,nb-1.))*B.sum(axis=0)`. -/
def covBatch (p : ℕ) (n : ℚ) (mean0 : Vec p) (C0 : Matrix (Fin p) (Fin p) ℚ)
    (Xc : List (Vec p)) : Matrix (Fin p) (Fin p) ℚ :=
  ((n - 1) / (n + max 1 ((Xc.length : ℚ) - 1))) • C0
    + (n + max 1 ((Xc.length : ℚ) - 1))⁻¹ •
        ∑ i ∈ Finset.range Xc.length, covIncr p n mean0 Xc i

/-- Lines 302-308: the state mutation committed by a successful
`_get_preds` call — new mean, new covariance, `n += nb`, and recomputed
clip bounds once `n` exceeds `start_clip`.  `sqrtQ` abstracts `np.sqrt`. -/
def stepState (p : ℕ) (sqrtQ : ℚ → ℚ) (s : Detector p) (X : List (Vec p)) :
    Detector p :=
  let nb := X.length
  let n : ℚ := (effN p s : ℚ)
  let Xc := clipBatch p s X
  let mean1 := newMeans p n s.mean Xc (nb - 1)
  let covB := covBatch p n s.mean (s.C.getD 0) Xc
  let stdev : Vec p := fun j => sqrtQ (covB j j)
  let n1 := s.n + nb
  { s with
    mean := mean1
    C := some covB
    n := n1
    clip :=
      if s.start_clip < (n1 : ℤ) then
        some (mean1 - s.n_stdev • stdev, mean1 + s.n_stdev • stdev)
      else s.clip }

/-- The sample mean of a finite list of observations. -/
def sampleMean (p : ℕ) (xs : List (Vec p)) : Vec p :=
  ((xs.length : ℚ))⁻¹ • xs.sum

/-- The sample covariance (divisor `n-1`) of a finite list of observations. -/
def sampleCov (p : ℕ) (xs : List (Vec p)) : Matrix (Fin p) (Fin p) ℚ :=
  ((xs.length : ℚ) - 1)⁻¹ •
    (xs.map (fun x =>
      Matrix.vecMulVec (x - sampleMean p xs) (x - sampleMean p xs))).sum

/-- Line 127: `n_components = min(self.n_components, p)` (line 127). -/
def kComps (p : ℕ) (s : Detector p) : ℕ := min s.n_components p

/-- Constant `_EPSILON = 1e-8` (line 271). -/
def epsQ : ℚ := 1 / 100000000

/-- The matrix handed to `scipy.linalg.eigh` on line 214: `cov_batch`, the
covariance already updated with the current (clipped) batch. -/
def eighArg (p : ℕ) (s : Detector p) (X : List (Vec p)) :
    Matrix (Fin p) (Fin p) ℚ :=
  covBatch p (effN p s : ℚ) s.mean (s.C.getD 0) (clipBatch p s X)

/-- The index range `eigvals=(p-n_components, p-1)` passed to `eigh`
(line 214): `eigh` returns eigenvalues in ascending order, so this selects
the slice with the largest eigenvalues. -/
def eighSlice (p k : ℕ) : ℕ × ℕ := (p - k, p - 1)

/-- Lines 220-223: the projected covariance `eigvects.T @ self.C @ eigvects`,
or the `n_components × n_components` zero matrix while `self.C` is still the
integer-`0` sentinel. -/
def projCov0 (p k : ℕ) (V : Matrix (Fin p) (Fin k) ℚ)
    (C : Option (Matrix (Fin p) (Fin p) ℚ)) : Matrix (Fin k) (Fin k) ℚ :=
  match C with
  | none => 0
  | some M => V.transpose * M * V

/-- Line 267: `proj_x_clip[i] - proj_means[i]`, the projected deviation of
clipped row `i` from the mean tracked just before that row. -/
def callU (p k : ℕ) (s : Detector p) (V : Matrix (Fin p) (Fin k) ℚ)
    (X : List (Vec p)) (i : ℕ) : Fin k → ℚ :=
  Matrix.vecMul ((clipBatch p s X).getD i 0) V -
    Matrix.vecMul (meanAt p (effN p s : ℚ) s.mean (clipBatch p s X) i) V

/-- Lines 266-267: `B[i] = (1/(n+i+1)) * outer(proj_x_clip[i]-proj_means[i])`,
the rank-one increment used by the incremental inverse loop. -/
def callB (p k : ℕ) (s : Detector p) (V : Matrix (Fin p) (Fin k) ℚ)
    (X : List (Vec p)) (i : ℕ) : Matrix (Fin k) (Fin k) ℚ :=
  ((effN p s : ℚ) + (i : ℚ) + 1)⁻¹ •
    Matrix.vecMulVec (callU p k s V X i) (callU p k s V X i)

/-- Line 276: `np.linalg.inv`, the matrix inverse, computably, via the
adjugate; over `ℚ` this agrees with Mathlib's `Matrix.inv` (see
`npInv_eq_inv`). -/
def npInv (k : ℕ) (A : Matrix (Fin k) (Fin k) ℚ) : Matrix (Fin k) (Fin k) ℚ :=
  A.det⁻¹ • A.adjugate

/-- The mutable locals of the loop on lines 269-287: the `all_C_inv` rows
emitted so far, the `c_inv` variable, and the running `proj_cov`. -/
structure InvState (k : ℕ) where
  acc : List (Matrix (Fin k) (Fin k) ℚ)
  cinv : Option (Matrix (Fin k) (Fin k) ℚ)
  pcov : Matrix (Fin k) (Fin k) ℚ

/-- One iteration of the loop on lines 273-287, at batch index `i`:
seed the inverse directly when `|det proj_cov| > 1e-8`; otherwise fold the
rank-one increment into `proj_cov` (skipping entirely when `n+i == 0`);
once seeded, rescale the previous row's inverse by `(n+i-1)/(n+i-2)` and
apply the rank-one inverse update with `B[i-1]`. -/
def invStep (k : ℕ) (n : ℚ) (Bs : ℕ → Matrix (Fin k) (Fin k) ℚ)
    (st : InvState k) (i : ℕ) : InvState k :=
  match st.cinv with
  | none =>
    if epsQ < |st.pcov.det| then
      { acc := st.acc ++ [npInv k st.pcov], cinv := some (npInv k st.pcov)
        pcov := st.pcov }
    else if n + (i : ℚ) = 0 then
      { st with acc := st.acc ++ [0] }
    else
      { acc := st.acc ++ [0], cinv := none
        pcov := ((n + (i : ℚ) - 1) / (n + (i : ℚ))) • st.pcov + Bs i }
  | some _ =>
    let c := ((n + (i : ℚ) - 1) / (n + (i : ℚ) - 2)) • st.acc.getD (i - 1) 0
    let BC1 := Bs (i - 1) * c
    { acc := st.acc ++ [c - (1 + BC1.trace)⁻¹ • (c * BC1)]
      cinv := some c
      pcov := st.pcov }

/-- The whole loop on lines 269-287: `all_C_inv` starts as `np.zeros_like(B)`
(rows left untouched stay `0`) and the loop runs over batch indices
`0, …, nb-1`. -/
def invLoop (k : ℕ) (n : ℚ) (Bs : ℕ → Matrix (Fin k) (Fin k) ℚ)
    (pcov0 : Matrix (Fin k) (Fin k) ℚ) (nb : ℕ) :
    List (Matrix (Fin k) (Fin k) ℚ) :=
  ((List.range nb).foldl (invStep k n Bs) ⟨[], none, pcov0⟩).acc

/-- The loop state after the first `m` iterations of the loop on lines
269-287. -/
def invRun (k : ℕ) (n : ℚ) (Bs : ℕ → Matrix (Fin k) (Fin k) ℚ)
    (pcov0 : Matrix (Fin k) (Fin k) ℚ) (m : ℕ) : InvState k :=
  (List.range m).foldl (invStep k n Bs) ⟨[], none, pcov0⟩

/-- The `all_C_inv` row stored for batch index `i`. -/
def emitted (k : ℕ) (n : ℚ) (Bs : ℕ → Matrix (Fin k) (Fin k) ℚ)
    (pcov0 : Matrix (Fin k) (Fin k) ℚ) (i : ℕ) : Matrix (Fin k) (Fin k) ℚ :=
  (invRun k n Bs pcov0 (i + 1)).acc.getD i 0

/-- The running projected covariance "as it stood immediately before row
`j`": the recurrence `proj_cov ← ((n+j-1)/(n+j))·proj_cov + B[j]` of line
282, guarded by the `n + j == 0` skip of lines 280-281, continued past the
seeding row. -/
def projCovSeq (k : ℕ) (n : ℚ) (Bs : ℕ → Matrix (Fin k) (Fin k) ℚ)
    (P0 : Matrix (Fin k) (Fin k) ℚ) : ℕ → Matrix (Fin k) (Fin k) ℚ
  | 0 => P0
  | j + 1 =>
    if n + (j : ℚ) = 0 then projCovSeq k n Bs P0 j
    else ((n + (j : ℚ) - 1) / (n + (j : ℚ))) • projCovSeq k n Bs P0 j + Bs j

/-- Line 311: `proj_x[i] - proj_means[i]`, the projected deviation of the
raw (unclipped) row `i` from the mean tracked just before that row. -/
def xDiff (p k : ℕ) (s : Detector p) (V : Matrix (Fin p) (Fin k) ℚ)
    (X : List (Vec p)) (i : ℕ) : Fin k → ℚ :=
  Matrix.vecMul (X.getD i 0) V -
    Matrix.vecMul (meanAt p (effN p s : ℚ) s.mean (clipBatch p s X) i) V

/-- Line 312: the score `score[i] = x_diff[i]ᵀ · all_C_inv[i] · x_diff[i]`. -/
def callScore (p k : ℕ) (s : Detector p) (V : Matrix (Fin p) (Fin k) ℚ)
    (X : List (Vec p)) (i : ℕ) : ℚ :=
  Matrix.dotProduct (xDiff p k s V X i)
    (((invLoop k ((effN p s : ℚ)) (callB p k s V X) (projCov0 p k V s.C)
        X.length).getD i 0).mulVec (xDiff p k s V X i))

/-- The whole of `_get_preds` after a successful eigendecomposition with
eigenvector matrix `V`: the committed state (lines 302-308), the scores
(lines 310-312) and the 0/1 predictions (line 313). -/
def processWith (p k : ℕ) (sqrtQ : ℚ → ℚ) (s : Detector p)
    (V : Matrix (Fin p) (Fin k) ℚ) (X : List (Vec p)) :
    Detector p × List ℚ × List ℕ :=
  (stepState p sqrtQ s X,
   (List.range X.length).map (callScore p k s V X),
   (List.range X.length).map fun i =>
     if s.threshold < callScore p k s V X i then 1 else 0)

/-- Operation `_get_preds` as observed by the caller: `eig` abstracts
`scipy.linalg.eigh` on `cov_batch`, returning the eigenvector matrix or
`none` when it raises a `NumericalError`.  No attribute of `self` is
assigned before line 214 in the source, so the error case surfaces the
object exactly as it was on entry. -/
def processCall (p : ℕ) (sqrtQ : ℚ → ℚ) (s : Detector p)
    (eig : Matrix (Fin p) (Fin p) ℚ →
      Option (Matrix (Fin p) (Fin (kComps p s)) ℚ))
    (X : List (Vec p)) : Detector p ⊕ (Detector p × List ℚ × List ℕ) :=
  match eig (eighArg p s X) with
  | none => Sum.inl s
  | some V => Sum.inr (processWith p (kComps p s) sqrtQ s V X)

/-- The states a detector can be in: freshly constructed, or the committed
result of a successful call on a nonempty batch (failed calls leave the
state untouched). -/
inductive Reachable (p : ℕ) : Detector p → Prop
  | init : ∀ threshold n_components n_stdev start_clip max_n,
      Reachable p (Detector.init p threshold n_components n_stdev start_clip max_n)
  | step : ∀ s sqrtQ X, Reachable p s → X ≠ [] →
      Reachable p (stepState p sqrtQ s X)

/-! ## Helper lemmas -/

/-- Over `ℚ` the adjugate-based inverse agrees with Mathlib's `Matrix.inv`. -/
lemma npInv_eq_inv (k : ℕ) (A : Matrix (Fin k) (Fin k) ℚ) : npInv k A = A⁻¹ := by
  rw [npInv, Matrix.inv_def, Ring.inverse_eq_inv]

/-- Trace of a rank-one matrix times `M`. -/
lemma trace_vecMulVec_mul (k : ℕ) (u v : Fin k → ℚ)
    (M : Matrix (Fin k) (Fin k) ℚ) :
    (Matrix.vecMulVec u v * M).trace = Matrix.dotProduct v (M.mulVec u) := by
  simp only [Matrix.trace, Matrix.diag, Matrix.mul_apply, Matrix.vecMulVec_apply,
    Matrix.dotProduct, Matrix.mulVec, Finset.mul_sum]
  rw [Finset.sum_comm]
  refine Finset.sum_congr rfl fun j _ => Finset.sum_congr rfl fun i _ => by ring

/-- Rank-one sandwich: `(uvᵗ) M (uvᵗ) = (vᵗMu) · uvᵗ`. -/
lemma vecMulVec_mul_mul_vecMulVec (k : ℕ) (u v : Fin k → ℚ)
    (M : Matrix (Fin k) (Fin k) ℚ) :
    Matrix.vecMulVec u v * M * Matrix.vecMulVec u v
      = Matrix.dotProduct v (M.mulVec u) • Matrix.vecMulVec u v := by
  ext i l
  simp only [Matrix.mul_apply, Matrix.vecMulVec_apply, Matrix.smul_apply,
    smul_eq_mul, Matrix.dotProduct, Matrix.mulVec, Finset.sum_mul,
    Finset.mul_sum]
  rw [Finset.sum_comm]
  refine Finset.sum_congr rfl fun j _ => Finset.sum_congr rfl fun m _ => by ring

/-- The key cancellation behind the update of line 287: for a rank-one `B`,
`B A B = trace(B A) · B`. -/
lemma rankOne_mul_mul (k : ℕ) (c : ℚ) (u v : Fin k → ℚ)
    (M : Matrix (Fin k) (Fin k) ℚ) :
    (c • Matrix.vecMulVec u v) * M * (c • Matrix.vecMulVec u v)
      = ((c • Matrix.vecMulVec u v) * M).trace • (c • Matrix.vecMulVec u v) := by
  have h1 := vecMulVec_mul_mul_vecMulVec k u v M
  have h2 := trace_vecMulVec_mul k u v M
  calc (c • Matrix.vecMulVec u v) * M * (c • Matrix.vecMulVec u v)
      = c • (c • (Matrix.vecMulVec u v * M * Matrix.vecMulVec u v)) := by
        rw [Matrix.smul_mul, Matrix.smul_mul, Matrix.mul_smul]
    _ = c • (c • (Matrix.dotProduct v (M.mulVec u) • Matrix.vecMulVec u v)) := by
        rw [h1]
    _ = ((c • Matrix.vecMulVec u v) * M).trace • (c • Matrix.vecMulVec u v) := by
        rw [Matrix.smul_mul, Matrix.trace_smul, h2]
        ext i j
        simp only [Matrix.smul_apply, smul_eq_mul]
        ring

/-- Sherman–Morrison, as used on lines 285-287: if `A` and `A + B` are
invertible and `B` is the stored rank-one increment, then `(A+B)⁻¹` equals
`A⁻¹ − (1 + trace(B·A⁻¹))⁻¹ · A⁻¹·B·A⁻¹`. -/
theorem shermanMorrison (k : ℕ) (A : Matrix (Fin k) (Fin k) ℚ) (c : ℚ)
    (u v : Fin k → ℚ) (hA : IsUnit A.det)
    (hAB : IsUnit (A + c • Matrix.vecMulVec u v).det) :
    (A + c • Matrix.vecMulVec u v)⁻¹
      = A⁻¹ - (1 + ((c • Matrix.vecMulVec u v) * A⁻¹).trace)⁻¹ •
          (A⁻¹ * ((c • Matrix.vecMulVec u v) * A⁻¹)) := by
  set B := c • Matrix.vecMulVec u v with hB
  set t := (B * A⁻¹).trace with ht
  have hkey : B * A⁻¹ * B = t • B := rankOne_mul_mul k c u v A⁻¹
  have hAAinv : A * A⁻¹ = 1 := Matrix.mul_nonsing_inv A hA
  have hABinv : (A + B) * (A + B)⁻¹ = 1 := Matrix.mul_nonsing_inv _ hAB
  have hABinv' : (A + B)⁻¹ * (A + B) = 1 := Matrix.nonsing_inv_mul _ hAB
  have htne : (1 : ℚ) + t ≠ 0 := by
    intro h0
    have hz : (A + B) * (A⁻¹ * B) = 0 := by
      have : (A + B) * (A⁻¹ * B) = B + t • B := by
        rw [Matrix.add_mul, ← Matrix.mul_assoc, hAAinv, Matrix.one_mul,
          ← Matrix.mul_assoc, hkey]
      rw [this]
      have : B + t • B = ((1 : ℚ) + t) • B := by
        rw [add_smul, one_smul]
      rw [this, h0, zero_smul]
    have hzero : A⁻¹ * B = 0 := by
      have := congrArg (fun M => (A + B)⁻¹ * M) hz
      simpa [← Matrix.mul_assoc, hABinv', Matrix.one_mul] using this
    have hBzero : B = 0 := by
      have := congrArg (fun M => A * M) hzero
      simpa [← Matrix.mul_assoc, hAAinv, Matrix.one_mul] using this
    rw [hBzero] at ht
    simp [ht] at h0
  have e1 : (A + B) * A⁻¹ = 1 + B * A⁻¹ := by rw [Matrix.add_mul, hAAinv]
  have e2 : (A + B) * (A⁻¹ * (B * A⁻¹)) = ((1 : ℚ) + t) • (B * A⁻¹) := by
    rw [Matrix.add_mul]
    have ea : A * (A⁻¹ * (B * A⁻¹)) = B * A⁻¹ := by
      rw [← Matrix.mul_assoc, hAAinv, Matrix.one_mul]
    have eb : B * (A⁻¹ * (B * A⁻¹)) = t • (B * A⁻¹) := by
      calc B * (A⁻¹ * (B * A⁻¹)) = (B * A⁻¹ * B) * A⁻¹ := by
            rw [Matrix.mul_assoc, Matrix.mul_assoc]
        _ = (t • B) * A⁻¹ := by rw [hkey]
        _ = t • (B * A⁻¹) := by rw [Matrix.smul_mul]
    rw [ea, eb, add_smul, one_smul]
  refine Matrix.inv_eq_right_inv ?_
  calc (A + B) * (A⁻¹ - ((1 : ℚ) + t)⁻¹ • (A⁻¹ * (B * A⁻¹)))
      = (A + B) * A⁻¹ - ((1 : ℚ) + t)⁻¹ • ((A + B) * (A⁻¹ * (B * A⁻¹))) := by
        rw [Matrix.mul_sub, Matrix.mul_smul]
    _ = 1 + B * A⁻¹ - ((1 : ℚ) + t)⁻¹ • (((1 : ℚ) + t) • (B * A⁻¹)) := by
        rw [e1, e2]
    _ = 1 := by
        rw [smul_smul, inv_mul_cancel₀ htne, one_smul]
        abel

/-! ## Characterisation of the incremental-inverse loop -/

lemma invRun_succ (k : ℕ) (n : ℚ) (Bs : ℕ → Matrix (Fin k) (Fin k) ℚ)
    (pcov0 : Matrix (Fin k) (Fin k) ℚ) (m : ℕ) :
    invRun k n Bs pcov0 (m + 1) = invStep k n Bs (invRun k n Bs pcov0 m) m := by
  rw [invRun, invRun, List.range_succ, List.foldl_append, List.foldl_cons,
    List.foldl_nil]

lemma invStep_acc_append (k : ℕ) (n : ℚ) (Bs : ℕ → Matrix (Fin k) (Fin k) ℚ)
    (st : InvState k) (i : ℕ) :
    ∃ x, (invStep k n Bs st i).acc = st.acc ++ [x] := by
  rw [invStep]
  match st with
  | ⟨acc, none, pcov⟩ =>
    by_cases h1 : epsQ < |pcov.det|
    · exact ⟨npInv k pcov, by simp [h1]⟩
    · by_cases h2 : n + (i : ℚ) = 0
      · exact ⟨0, by simp [h1, h2]⟩
      · exact ⟨0, by simp [h1, h2]⟩
  | ⟨acc, some c, pcov⟩ => exact ⟨_, rfl⟩

lemma invRun_acc_length (k : ℕ) (n : ℚ) (Bs : ℕ → Matrix (Fin k) (Fin k) ℚ)
    (pcov0 : Matrix (Fin k) (Fin k) ℚ) (m : ℕ) :
    (invRun k n Bs pcov0 m).acc.length = m := by
  induction m with
  | zero => rfl
  | succ m ih =>
    rw [invRun_succ]
    obtain ⟨x, hx⟩ := invStep_acc_append k n Bs (invRun k n Bs pcov0 m) m
    rw [hx, List.length_append, ih, List.length_singleton]

lemma invRun_acc_getD (k : ℕ) (n : ℚ) (Bs : ℕ → Matrix (Fin k) (Fin k) ℚ)
    (pcov0 : Matrix (Fin k) (Fin k) ℚ) (m i : ℕ) (h : i < m) :
    (invRun k n Bs pcov0 m).acc.getD i 0 = emitted k n Bs pcov0 i := by
  induction m with
  | zero => omega
  | succ m ih =>
    rcases Nat.lt_succ_iff_lt_or_eq.mp h with h' | h'
    · rw [invRun_succ]
      obtain ⟨x, hx⟩ := invStep_acc_append k n Bs (invRun k n Bs pcov0 m) m
      rw [hx, List.getD_append _ _ _ _ (by rw [invRun_acc_length]; exact h'),
        ih h']
    · subst h'; rfl

lemma invLoop_getD (k : ℕ) (n : ℚ) (Bs : ℕ → Matrix (Fin k) (Fin k) ℚ)
    (pcov0 : Matrix (Fin k) (Fin k) ℚ) (nb i : ℕ) (h : i < nb) :
    (invLoop k n Bs pcov0 nb).getD i 0 = emitted k n Bs pcov0 i :=
  invRun_acc_getD k n Bs pcov0 nb i h

/-- Before any seed: every stored row is `0`, `c_inv` is still `None`, and
the loop's `proj_cov` tracks `projCovSeq`. -/
lemma invRun_preSeed (k : ℕ) (n : ℚ) (Bs : ℕ → Matrix (Fin k) (Fin k) ℚ)
    (pcov0 : Matrix (Fin k) (Fin k) ℚ) (m : ℕ)
    (hns : ∀ j, j < m → ¬ epsQ < |(projCovSeq k n Bs pcov0 j).det|) :
    invRun k n Bs pcov0 m
      = ⟨List.replicate m 0, none, projCovSeq k n Bs pcov0 m⟩ := by
  induction m with
  | zero => rfl
  | succ m ih =>
    rw [invRun_succ, ih (fun j hj => hns j (Nat.lt_succ_of_lt hj)), invStep]
    simp only
    rw [if_neg (hns m (Nat.lt_succ_self m))]
    by_cases h2 : n + (m : ℚ) = 0
    · rw [if_pos h2]
      have : projCovSeq k n Bs pcov0 (m + 1) = projCovSeq k n Bs pcov0 m := by
        rw [projCovSeq, if_pos h2]
      rw [this, ← List.replicate_succ']
    · rw [if_neg h2]
      have : projCovSeq k n Bs pcov0 (m + 1)
          = ((n + (m : ℚ) - 1) / (n + (m : ℚ))) • projCovSeq k n Bs pcov0 m
            + Bs m := by
        rw [projCovSeq, if_neg h2]
      rw [← this, ← List.replicate_succ']

/-- At the seeding row `s` the loop stores `inv(proj_cov)` and flips
`c_inv`. -/
lemma invRun_seed (k : ℕ) (n : ℚ) (Bs : ℕ → Matrix (Fin k) (Fin k) ℚ)
    (pcov0 : Matrix (Fin k) (Fin k) ℚ) (s : ℕ)
    (hns : ∀ j, j < s → ¬ epsQ < |(projCovSeq k n Bs pcov0 j).det|)
    (hs : epsQ < |(projCovSeq k n Bs pcov0 s).det|) :
    invRun k n Bs pcov0 (s + 1)
      = ⟨List.replicate s 0 ++ [npInv k (projCovSeq k n Bs pcov0 s)],
         some (npInv k (projCovSeq k n Bs pcov0 s)),
         projCovSeq k n Bs pcov0 s⟩ := by
  rw [invRun_succ, invRun_preSeed k n Bs pcov0 s hns, invStep]
  simp only
  rw [if_pos hs]

lemma invStep_cinv_isSome (k : ℕ) (n : ℚ) (Bs : ℕ → Matrix (Fin k) (Fin k) ℚ)
    (st : InvState k) (i : ℕ) (h : st.cinv.isSome) :
    (invStep k n Bs st i).cinv.isSome := by
  rw [invStep]
  match st, h with
  | ⟨acc, some c, pcov⟩, _ => rfl

lemma invRun_cinv_isSome (k : ℕ) (n : ℚ) (Bs : ℕ → Matrix (Fin k) (Fin k) ℚ)
    (pcov0 : Matrix (Fin k) (Fin k) ℚ) (s m : ℕ)
    (hns : ∀ j, j < s → ¬ epsQ < |(projCovSeq k n Bs pcov0 j).det|)
    (hs : epsQ < |(projCovSeq k n Bs pcov0 s).det|) (hm : s < m) :
    (invRun k n Bs pcov0 m).cinv.isSome := by
  induction m with
  | zero => omega
  | succ m ih =>
    rcases Nat.lt_succ_iff_lt_or_eq.mp hm with h' | h'
    · rw [invRun_succ]
      exact invStep_cinv_isSome k n Bs _ m (ih h')
    · subst h'
      rw [invRun_seed k n Bs pcov0 s hns hs]
      rfl

/-- After the seed, row `i` is produced from row `i-1` by the rescale and
rank-one update of lines 285-287. -/
lemma emitted_postSeed (k : ℕ) (n : ℚ) (Bs : ℕ → Matrix (Fin k) (Fin k) ℚ)
    (pcov0 : Matrix (Fin k) (Fin k) ℚ) (s i : ℕ)
    (hns : ∀ j, j < s → ¬ epsQ < |(projCovSeq k n Bs pcov0 j).det|)
    (hs : epsQ < |(projCovSeq k n Bs pcov0 s).det|) (hi : s < i) :
    emitted k n Bs pcov0 i
      = ((n + (i : ℚ) - 1) / (n + (i : ℚ) - 2)) • emitted k n Bs pcov0 (i - 1)
        - (1 + (Bs (i - 1) *
            (((n + (i : ℚ) - 1) / (n + (i : ℚ) - 2)) •
              emitted k n Bs pcov0 (i - 1))).trace)⁻¹ •
          ((((n + (i : ℚ) - 1) / (n + (i : ℚ) - 2)) •
              emitted k n Bs pcov0 (i - 1)) *
            (Bs (i - 1) *
              (((n + (i : ℚ) - 1) / (n + (i : ℚ) - 2)) •
                emitted k n Bs pcov0 (i - 1)))) := by
  have hsome := invRun_cinv_isSome k n Bs pcov0 s i hns hs hi
  rw [emitted, invRun_succ]
  obtain ⟨c, hc⟩ := Option.isSome_iff_exists.mp hsome
  have hlen := invRun_acc_length k n Bs pcov0 i
  have hprev : (invRun k n Bs pcov0 i).acc.getD (i - 1) 0
      = emitted k n Bs pcov0 (i - 1) :=
    invRun_acc_getD k n Bs pcov0 i (i - 1) (by omega)
  rw [invStep]
  match hst : invRun k n Bs pcov0 i, hc, hlen, hprev with
  | ⟨acc, some c', pcov⟩, _, hlen, hprev =>
    simp only at hlen hprev ⊢
    rw [hprev, List.getD_eq_getElem?_getD, ← hlen, List.getElem?_concat_length]
    rfl

lemma getD_map_range {α : Type} (d : α) (f : ℕ → α) (nb i : ℕ) (h : i < nb) :
    ((List.range nb).map f).getD i d = f i := by
  rw [List.getD_eq_getElem?_getD, List.getElem?_map, List.getElem?_range h,
    Option.map_some', Option.getD_some]

lemma stepState_start_clip (p : ℕ) (sqrtQ : ℚ → ℚ) (s : Detector p)
    (X : List (Vec p)) : (stepState p sqrtQ s X).start_clip = s.start_clip := rfl

lemma stepState_n (p : ℕ) (sqrtQ : ℚ → ℚ) (s : Detector p) (X : List (Vec p)) :
    (stepState p sqrtQ s X).n = s.n + X.length := rfl

lemma stepState_clip_of_ge (p : ℕ) (sqrtQ : ℚ → ℚ) (s : Detector p)
    (X : List (Vec p)) (h : ¬ s.start_clip < ((s.n + X.length : ℕ) : ℤ)) :
    (stepState p sqrtQ s X).clip = s.clip := by
  simp only [stepState]
  rw [if_neg h]

lemma stepState_clip_of_lt (p : ℕ) (sqrtQ : ℚ → ℚ) (s : Detector p)
    (X : List (Vec p)) (h : s.start_clip < ((s.n + X.length : ℕ) : ℤ)) :
    ∃ lu, (stepState p sqrtQ s X).clip = some lu := by
  simp only [stepState]
  rw [if_pos h]
  exact ⟨_, rfl⟩

/-- In every reachable state with a non-negative `start_clip`, the clip
bounds are `None` exactly while `n ≤ start_clip`. -/
lemma reachable_clip_iff (p : ℕ) (s : Detector p) (h : Reachable p s) :
    0 ≤ s.start_clip → (s.clip = none ↔ (s.n : ℤ) ≤ s.start_clip) := by
  induction h with
  | init th nc ns sc mx =>
    intro hsc
    simpa [Detector.init] using hsc
  | step s' sqrtQ X hr hX ih =>
    intro hsc
    rw [stepState_start_clip] at hsc
    by_cases hlt : s'.start_clip < ((s'.n + X.length : ℕ) : ℤ)
    · obtain ⟨lu, hlu⟩ := stepState_clip_of_lt p sqrtQ s' X hlt
      rw [hlu, stepState_n, stepState_start_clip]
      simp only [Option.some_ne_none, false_iff]
      omega
    · rw [stepState_clip_of_ge p sqrtQ s' X hlt, stepState_n,
        stepState_start_clip]
      have h1 : ((s'.n + X.length : ℕ) : ℤ) ≤ s'.start_clip := by omega
      have h2 : (s'.n : ℤ) ≤ s'.start_clip := by
        push_cast at h1 ⊢
        omega
      rw [(ih hsc).mpr h2]
      simp only [true_iff]
      exact h1

lemma getD_append_singleton {α : Type} (l : List α) (x d : α) :
    (l ++ [x]).getD l.length d = x := by
  rw [List.getD_eq_getElem?_getD, List.getElem?_concat_length, Option.getD_some]

lemma smul_matrix_inv (k : ℕ) (a : ℚ) (A : Matrix (Fin k) (Fin k) ℚ)
    (ha : a ≠ 0) (hA : IsUnit A.det) : (a • A)⁻¹ = a⁻¹ • A⁻¹ := by
  refine Matrix.inv_eq_right_inv ?_
  rw [Matrix.smul_mul, Matrix.mul_smul, smul_smul, mul_inv_cancel₀ ha,
    Matrix.mul_nonsing_inv A hA, one_smul]

/-- Core refinement fact: once the loop has seeded at row `s`, the emitted
row `i` equals the direct inverse of the running projected covariance
before row `i`, provided every running covariance after the seed up to `i`
is invertible (`n + s ≥ 2` keeps the rescale denominators of line 285
non-zero, which is where the Python would raise `ZeroDivisionError`). -/
lemma emitted_eq_inv (k : ℕ) (n : ℚ) (Bs : ℕ → Matrix (Fin k) (Fin k) ℚ)
    (coef : ℕ → ℚ) (u : ℕ → Fin k → ℚ)
    (hB : ∀ j, Bs j = coef j • Matrix.vecMulVec (u j) (u j))
    (pcov0 : Matrix (Fin k) (Fin k) ℚ) (s i : ℕ)
    (hns : ∀ j, j < s → ¬ epsQ < |(projCovSeq k n Bs pcov0 j).det|)
    (hs : epsQ < |(projCovSeq k n Bs pcov0 s).det|)
    (hn2 : 2 ≤ n + (s : ℚ)) (hsi : s ≤ i) :
    (∀ j, s < j → j ≤ i → IsUnit ((projCovSeq k n Bs pcov0 j).det)) →
    emitted k n Bs pcov0 i = (projCovSeq k n Bs pcov0 i)⁻¹ := by
  induction i, hsi using Nat.le_induction with
  | base =>
    intro _
    rw [emitted, invRun_seed k n Bs pcov0 s hns hs]
    simp only
    have hg := getD_append_singleton
      (List.replicate s (0 : Matrix (Fin k) (Fin k) ℚ))
      (npInv k (projCovSeq k n Bs pcov0 s)) 0
    rw [List.length_replicate] at hg
    rw [hg, npInv_eq_inv]
  | succ i hsi ih =>
    intro hinv
    have hlt : s < i + 1 := Nat.lt_succ_of_le hsi
    have hein : emitted k n Bs pcov0 i = (projCovSeq k n Bs pcov0 i)⁻¹ :=
      ih (fun j h1 h2 => hinv j h1 (h2.trans (Nat.le_succ i)))
    have hpost := emitted_postSeed k n Bs pcov0 s (i + 1) hns hs hlt
    simp only [Nat.add_sub_cancel] at hpost
    have hcast : ((i + 1 : ℕ) : ℚ) = (i : ℚ) + 1 := by push_cast; ring
    rw [hcast] at hpost
    have hsq : (s : ℚ) ≤ (i : ℚ) := by exact_mod_cast hsi
    have hni2 : 2 ≤ n + (i : ℚ) := by linarith
    have hd1 : n + (i : ℚ) - 1 ≠ 0 := by intro h0; rw [sub_eq_zero] at h0; linarith
    have hd0 : n + (i : ℚ) ≠ 0 := by intro h0; rw [h0] at hni2; linarith
    have ha : (n + (i : ℚ) - 1) / (n + (i : ℚ)) ≠ 0 := div_ne_zero hd1 hd0
    have hr : (n + ((i : ℚ) + 1) - 1) / (n + ((i : ℚ) + 1) - 2)
        = ((n + (i : ℚ) - 1) / (n + (i : ℚ)))⁻¹ := by
      rw [inv_div]
      ring_nf
    have hPrec : projCovSeq k n Bs pcov0 (i + 1)
        = ((n + (i : ℚ) - 1) / (n + (i : ℚ))) • projCovSeq k n Bs pcov0 i
          + Bs i := by
      rw [projCovSeq, if_neg hd0]
    have hPi : IsUnit (projCovSeq k n Bs pcov0 i).det := by
      rcases Nat.eq_or_lt_of_le hsi with he | hl
      · refine isUnit_iff_ne_zero.mpr fun h0 => ?_
        rw [he, h0] at hs
        norm_num [epsQ] at hs
      · exact hinv i hl (Nat.le_succ i)
    have hAdet : IsUnit ((((n + (i : ℚ) - 1) / (n + (i : ℚ))) •
        projCovSeq k n Bs pcov0 i).det) := by
      rw [Matrix.det_smul]
      exact (isUnit_iff_ne_zero.mpr (pow_ne_zero _ ha)).mul hPi
    have hABdet : IsUnit ((((n + (i : ℚ) - 1) / (n + (i : ℚ))) •
        projCovSeq k n Bs pcov0 i + Bs i).det) := by
      rw [← hPrec]
      exact hinv (i + 1) hlt le_rfl
    have hSM := shermanMorrison k
      (((n + (i : ℚ) - 1) / (n + (i : ℚ))) • projCovSeq k n Bs pcov0 i)
      (coef i) (u i) (u i) hAdet (by rw [← hB i]; exact hABdet)
    rw [← hB i] at hSM
    have hAinv : ((((n + (i : ℚ) - 1) / (n + (i : ℚ))) •
        projCovSeq k n Bs pcov0 i))⁻¹
        = ((n + (i : ℚ) - 1) / (n + (i : ℚ)))⁻¹ •
            (projCovSeq k n Bs pcov0 i)⁻¹ :=
      smul_matrix_inv k _ _ ha hPi
    rw [hein] at hpost
    rw [hpost, hr, hPrec, hSM, hAinv]

/-! ## The claims -/

/-- Claim C1 (code bug): the claim says that after each call `mean` and `C`
equal the running sample mean and sample covariance (divisor `n-1`) of
every observation absorbed so far.  Feeding the 1-feature observations
`2` then `4` in two single-row calls (no clipping, no cap), the code
stores `C = 1` while the exact sample covariance of `{2, 4}` is `2`
(line 149 divides by `n + max(1, nb-1) = 2` where the notebook's own
formula (2) requires `n + nb - 1 = 1`); the mean is tracked exactly. -/
theorem C1_covariance_formula_bug :
    ((stepState 1 id (stepState 1 id (Detector.init 1 25 3 3 50 (-1))
        [fun _ => 2]) [fun _ => 4]).C.getD 0) 0 0 = 1 ∧
    sampleCov 1 [fun _ => 2, fun _ => 4] 0 0 = 2 ∧
    (stepState 1 id (stepState 1 id (Detector.init 1 25 3 3 50 (-1))
        [fun _ => 2]) [fun _ => 4]).mean
      = sampleMean 1 [fun _ => 2, fun _ => 4] := by
  refine ⟨?_, ?_, funext fun j => ?_⟩
  · norm_num [stepState, Detector.init, effN, clipBatch, newMeans, rollMeans,
      meanAt, covBatch, covIncr, Matrix.vecMulVec, Finset.sum_range_succ]
  · norm_num [sampleCov, sampleMean, Matrix.vecMulVec]
  · norm_num [stepState, Detector.init, effN, clipBatch, newMeans, rollMeans,
      meanAt, sampleMean]

/-- Claim C2 (code bug): the claim says the final covariance is invariant to
how the stream is split into batches.  Feeding `[2, 4]` (one feature) as
two single-row batches yields a final covariance of `1`, while the single
two-row batch yields `2`: the `max(1, nb-1)` floor on line 149 breaks
batching invariance for `nb = 1`, `n ≥ 1`. -/
theorem C2_batch_split_dependence :
    ((stepState 1 id (stepState 1 id (Detector.init 1 25 3 3 50 (-1))
        [fun _ => 2]) [fun _ => 4]).C.getD 0) 0 0 = 1 ∧
    ((stepState 1 id (Detector.init 1 25 3 3 50 (-1))
        [fun _ => 2, fun _ => 4]).C.getD 0) 0 0 = 2 := by
  constructor
  · norm_num [stepState, Detector.init, effN, clipBatch, newMeans, rollMeans,
      meanAt, covBatch, covIncr, Matrix.vecMulVec, Finset.sum_range_succ]
  · norm_num [stepState, Detector.init, effN, clipBatch, newMeans, rollMeans,
      meanAt, covBatch, covIncr, Matrix.vecMulVec, Finset.sum_range_succ,
      List.take]

/-- Claim C4 counterexample: on the second call of a fresh 1-feature detector
(observations `2` then `4`) the matrix handed to `eigh` is the post-batch
covariance `1`, not the pre-batch covariance `0` stored in `C` — so the
eigendecomposition is not computed on the state as of the previous call. -/
theorem C4_counterexample :
    eighArg 1 (stepState 1 id (Detector.init 1 25 3 3 50 (-1)) [fun _ => 2])
        [fun _ => 4]
      ≠ (stepState 1 id (Detector.init 1 25 3 3 50 (-1)) [fun _ => 2]).C.getD 0 := by
  intro h
  have h00 := congrFun (congrFun h 0) 0
  norm_num [eighArg, stepState, Detector.init, effN, clipBatch, newMeans,
    rollMeans, meanAt, covBatch, covIncr, Matrix.vecMulVec,
    Finset.sum_range_succ] at h00

/-- Claim C4 (amended): the eigendecomposition is computed on the post-batch
covariance `cov_batch` — exactly the matrix the same call commits to `C` —
and the `eigvals=(p-n_components, p-1)` slice selects the eigenvectors
with the largest eigenvalues of an ascending-order solver. -/
theorem C4_eigh_post_batch_top_slice (p : ℕ) (sqrtQ : ℚ → ℚ) (s : Detector p)
    (X : List (Vec p)) :
    eighArg p s X = (stepState p sqrtQ s X).C.getD 0 ∧
    (∀ (k : ℕ) (ev : Fin p → ℚ), Monotone ev → ∀ j j' : Fin p,
      (eighSlice p k).1 ≤ (j : ℕ) → ((j' : ℕ) < (eighSlice p k).1) →
      ev j' ≤ ev j) := by
  refine ⟨rfl, fun k ev hmono j j' hj hj' => ?_⟩
  exact hmono (by rw [Fin.le_def]; omega)

/-- Witness for `C4_eigh_post_batch_top_slice`, at `p = 2`, `k = 1`,
`ev` constant. -/
theorem C4_eigh_post_batch_top_slice_witness :
    Monotone (fun _ : Fin 2 => (0 : ℚ)) ∧ (0 : ℚ) ≤ (0 : ℚ) :=
  ⟨monotone_const,
   (C4_eigh_post_batch_top_slice 2 id (Detector.init 2 25 3 3 50 (-1)) []).2
     1 (fun _ => 0) monotone_const 1 0 (by decide) (by decide)⟩

/-- Claim C5 counterexample: with `start_clip = -1` (the constructor does not
reject it) the freshly constructed detector has `clipBounds = None` while
`observationCount = 0 > -1 = startClip`, violating the claimed invariant
`clipBounds = None ↔ n ≤ startClip` — and on the first call the code in
fact takes the clipping branch with `clip = None` (a `TypeError` in
Python), so clipping is not "never active when `n = 0` regardless of
`startClip`". -/
theorem C5_counterexample :
    ¬((Detector.init 1 25 3 3 (-1) (-1)).clip = none ↔
        ((Detector.init 1 25 3 3 (-1) (-1)).n : ℤ)
          ≤ (Detector.init 1 25 3 3 (-1) (-1)).start_clip) := by
  intro h
  simp [Detector.init] at h

/-- Claim C5 (amended): for `startClip ≥ 0`, every reachable state satisfies
`clipBounds = None ↔ observationCount ≤ startClip`; the incoming batch is
clamped to the stored bounds iff the pre-batch count exceeds `startClip`,
and no clipping occurs while `observationCount = 0`. -/
theorem C5_clip_invariant (p : ℕ) (s : Detector p) (h : Reachable p s)
    (hsc : 0 ≤ s.start_clip) :
    (s.clip = none ↔ (s.n : ℤ) ≤ s.start_clip) ∧
    (∀ X, ¬ s.start_clip < (s.n : ℤ) → clipBatch p s X = X) ∧
    (∀ X, s.start_clip < (s.n : ℤ) →
      ∃ lu, s.clip = some lu ∧ clipBatch p s X = X.map (clipRow p lu.1 lu.2)) ∧
    (s.n = 0 → ∀ X, clipBatch p s X = X) := by
  have hiff := reachable_clip_iff p s h hsc
  refine ⟨hiff, fun X hX => ?_, fun X hX => ?_, fun h0 X => ?_⟩
  · rw [clipBatch, if_neg hX]
  · have hne : ¬ s.clip = none := by
      rw [hiff]
      omega
    obtain ⟨lu, hlu⟩ := Option.ne_none_iff_exists'.mp hne
    refine ⟨lu, hlu, ?_⟩
    rw [clipBatch, if_pos hX, hlu]
  · rw [clipBatch, if_neg (by omega)]

/-- Witness for `C5_clip_invariant`: the freshly constructed default
detector (`start_clip = 50`) has `clip = None` and clips nothing. -/
theorem C5_clip_invariant_witness :
    (Detector.init 1 25 3 3 50 (-1)).clip = none ∧
    clipBatch 1 (Detector.init 1 25 3 3 50 (-1)) [fun _ => 9]
      = [fun _ => 9] :=
  ⟨((C5_clip_invariant 1 (Detector.init 1 25 3 3 50 (-1))
      (Reachable.init 25 3 3 50 (-1)) (by norm_num [Detector.init])).1).mpr
      (by norm_num [Detector.init]),
   (C5_clip_invariant 1 (Detector.init 1 25 3 3 50 (-1))
      (Reachable.init 25 3 3 50 (-1)) (by norm_num [Detector.init])).2.2.2
      (by norm_num [Detector.init]) [fun _ => 9]⟩

/-- Claim C6: a batch row is labelled `1` iff its score strictly exceeds the
threshold, and `0` otherwise (so a score equal to the threshold is not an
outlier). -/
theorem C6_label_strict_threshold (p k : ℕ) (sqrtQ : ℚ → ℚ) (s : Detector p)
    (V : Matrix (Fin p) (Fin k) ℚ) (X : List (Vec p)) (i : ℕ)
    (hi : i < X.length) :
    ((processWith p k sqrtQ s V X).2.2.getD i 0 = 1 ↔
      s.threshold < callScore p k s V X i) ∧
    ((processWith p k sqrtQ s V X).2.2.getD i 0 = 0 ↔
      ¬ s.threshold < callScore p k s V X i) := by
  have hmap : (processWith p k sqrtQ s V X).2.2.getD i 0
      = if s.threshold < callScore p k s V X i then 1 else 0 :=
    getD_map_range 0 _ X.length i hi
  rw [hmap]
  by_cases hc : s.threshold < callScore p k s V X i
  · simp [hc]
  · simp [hc]

/-- Witness for `C6_label_strict_threshold`: first call of a fresh
1-feature detector. -/
theorem C6_label_strict_threshold_witness :
    ((processWith 1 1 id (Detector.init 1 25 3 3 50 (-1)) 1
        [fun _ => 3]).2.2.getD 0 0 = 1 ↔
      (Detector.init 1 25 3 3 50 (-1)).threshold
        < callScore 1 1 (Detector.init 1 25 3 3 50 (-1)) 1 [fun _ => 3] 0) ∧
    ((processWith 1 1 id (Detector.init 1 25 3 3 50 (-1)) 1
        [fun _ => 3]).2.2.getD 0 0 = 0 ↔
      ¬ (Detector.init 1 25 3 3 50 (-1)).threshold
        < callScore 1 1 (Detector.init 1 25 3 3 50 (-1)) 1 [fun _ => 3] 0) :=
  C6_label_strict_threshold 1 1 id (Detector.init 1 25 3 3 50 (-1)) 1
    [fun _ => 3] 0 (by decide)

/-- Claim C7: the effective `n` equals `min(observationCount, max_n)` when the
cap is positive and `observationCount` otherwise (including the `-1`
sentinel), and it is this quantity that is substituted into the mean
update, the covariance update, and the inverse-loop increments. -/
theorem C7_effective_sample_count (p : ℕ) (sqrtQ : ℚ → ℚ) (s : Detector p)
    (X : List (Vec p)) :
    ((0 < s.max_n → effN p s = min (s.n : ℤ) s.max_n) ∧
      (s.max_n ≤ 0 → effN p s = (s.n : ℤ))) ∧
    (stepState p sqrtQ s X).mean
      = newMeans p (effN p s : ℚ) s.mean (clipBatch p s X) (X.length - 1) ∧
    (stepState p sqrtQ s X).C
      = some (covBatch p (effN p s : ℚ) s.mean (s.C.getD 0)
          (clipBatch p s X)) ∧
    (∀ (k : ℕ) (V : Matrix (Fin p) (Fin k) ℚ) (i : ℕ),
      callB p k s V X i
        = ((effN p s : ℚ) + (i : ℚ) + 1)⁻¹ •
            Matrix.vecMulVec (callU p k s V X i) (callU p k s V X i)) := by
  refine ⟨⟨fun h => ?_, fun h => ?_⟩, rfl, rfl, fun k V i => rfl⟩
  · rw [effN, if_pos h]
  · rw [effN, if_neg (by omega)]

/-- Witness for `C7_effective_sample_count`: a capped detector
(`max_n = 5`). -/
theorem C7_effective_sample_count_witness :
    (0 : ℤ) < (Detector.init 1 25 3 3 50 5).max_n ∧
    effN 1 (Detector.init 1 25 3 3 50 5)
      = min ((Detector.init 1 25 3 3 50 5).n : ℤ)
          (Detector.init 1 25 3 3 50 5).max_n :=
  ⟨by norm_num [Detector.init],
   (C7_effective_sample_count 1 id (Detector.init 1 25 3 3 50 5) []).1.1
     (by norm_num [Detector.init])⟩

/-- Claim C8 counterexample: the constructor accepts `componentCount = 0` and
`startClip = -5` without raising — a detector state is produced whose
hyperparameters violate the claimed validation, so `configure` does not
validate. -/
theorem C8_counterexample :
    ¬(1 ≤ (Detector.init 1 25 0 3 (-5) (-1)).n_components ∧
      0 ≤ (Detector.init 1 25 0 3 (-5) (-1)).start_clip) := by
  intro h
  simp [Detector.init] at h

/-- Claim C8 (amended): the constructor performs no validation at all — for
every argument tuple it returns a detector state that stores the
hyperparameters unchanged, with `clip = None`, `mean = 0`, `C = 0`,
`n = 0`. -/
theorem C8_init_stores_params (p : ℕ) (th : ℚ) (nc : ℕ) (ns : ℚ)
    (sc mx : ℤ) :
    (Detector.init p th nc ns sc mx).threshold = th ∧
    (Detector.init p th nc ns sc mx).n_components = nc ∧
    (Detector.init p th nc ns sc mx).n_stdev = ns ∧
    (Detector.init p th nc ns sc mx).start_clip = sc ∧
    (Detector.init p th nc ns sc mx).max_n = mx ∧
    (Detector.init p th nc ns sc mx).clip = none ∧
    (Detector.init p th nc ns sc mx).mean = 0 ∧
    (Detector.init p th nc ns sc mx).C = none ∧
    (Detector.init p th nc ns sc mx).n = 0 :=
  ⟨rfl, rfl, rfl, rfl, rfl, rfl, rfl, rfl, rfl⟩

/-- Claim C9: when the eigendecomposition fails (`eig` returns `none`,
modelling the `NumericalError` on non-finite input), the call returns the
error before any attribute assignment, so `mean`, `C`, `n` and `clip` are
all exactly as they were before the call. -/
theorem C9_numerical_error_leaves_state (p : ℕ) (sqrtQ : ℚ → ℚ)
    (s t : Detector p)
    (eig : Matrix (Fin p) (Fin p) ℚ →
      Option (Matrix (Fin p) (Fin (kComps p s)) ℚ))
    (X : List (Vec p)) (h : processCall p sqrtQ s eig X = Sum.inl t) :
    t.mean = s.mean ∧ t.C = s.C ∧ t.n = s.n ∧ t.clip = s.clip := by
  rw [processCall] at h
  cases heq : eig (eighArg p s X) with
  | none =>
    rw [heq] at h
    simp only [Sum.inl.injEq] at h
    rw [← h]
    exact ⟨rfl, rfl, rfl, rfl⟩
  | some V =>
    rw [heq] at h
    simp at h

/-- Witness for `C9_numerical_error_leaves_state`: an eigendecomposition
oracle that always fails leaves the fresh detector untouched. -/
theorem C9_numerical_error_leaves_state_witness :
    (Detector.init 1 25 3 3 50 (-1)).C = (Detector.init 1 25 3 3 50 (-1)).C ∧
    (Detector.init 1 25 3 3 50 (-1)).n = (Detector.init 1 25 3 3 50 (-1)).n :=
  ⟨(C9_numerical_error_leaves_state 1 id (Detector.init 1 25 3 3 50 (-1))
      (Detector.init 1 25 3 3 50 (-1)) (fun _ => none) [fun _ => 3] rfl).2.1,
   (C9_numerical_error_leaves_state 1 id (Detector.init 1 25 3 3 50 (-1))
      (Detector.init 1 25 3 3 50 (-1)) (fun _ => none) [fun _ => 3] rfl).2.2.1⟩

/-- Claim C3: once a seed inverse has been produced at batch row `sd`
(the projected covariance's determinant exceeded `1e-8` there, and not
before), the inverse the loop emits for each subsequent row `i` equals, in
exact arithmetic, the direct matrix inverse of the running projected
covariance as it stood immediately before row `i`, whenever the running
covariances after the seed are invertible.  (`2 ≤ n + sd` reflects that
for `n + sd < 2` the Python rescale `(n+i-1.)/float(n+i-2.)` raises
`ZeroDivisionError` instead of emitting anything.) -/
theorem C3_incremental_inverse_refines_direct (p k : ℕ) (s : Detector p)
    (V : Matrix (Fin p) (Fin k) ℚ) (X : List (Vec p)) (sd i : ℕ)
    (hns : ∀ j, j < sd → ¬ epsQ < |(projCovSeq k (effN p s : ℚ)
        (callB p k s V X) (projCov0 p k V s.C) j).det|)
    (hs : epsQ < |(projCovSeq k (effN p s : ℚ) (callB p k s V X)
        (projCov0 p k V s.C) sd).det|)
    (hn2 : 2 ≤ (effN p s : ℚ) + (sd : ℚ))
    (hsi : sd ≤ i) (hlen : i < X.length)
    (hinv : ∀ j, sd < j → j ≤ i → IsUnit ((projCovSeq k (effN p s : ℚ)
        (callB p k s V X) (projCov0 p k V s.C) j).det)) :
    (invLoop k (effN p s : ℚ) (callB p k s V X) (projCov0 p k V s.C)
        X.length).getD i 0
      = (projCovSeq k (effN p s : ℚ) (callB p k s V X)
          (projCov0 p k V s.C) i)⁻¹ := by
  rw [invLoop_getD k (effN p s : ℚ) (callB p k s V X) (projCov0 p k V s.C)
    X.length i hlen]
  exact emitted_eq_inv k (effN p s : ℚ) (callB p k s V X)
    (fun j => ((effN p s : ℚ) + (j : ℚ) + 1)⁻¹) (callU p k s V X)
    (fun j => rfl) (projCov0 p k V s.C) sd i hns hs hn2 hsi hinv

/-- Witness for `C3_incremental_inverse_refines_direct`: a 1-feature
detector with `n = 2`, identity covariance and eigenvector `1`, batch
`[1, 9]`: the loop seeds at row 0 and its row-1 output is the inverse of
the running projected covariance before row 1. -/
theorem C3_incremental_inverse_refines_direct_witness :
    epsQ < |(projCovSeq 1
        (effN 1 (⟨25, 1, -1, 3, 50, none, 0, some 1, 2⟩ : Detector 1) : ℚ)
        (callB 1 1 (⟨25, 1, -1, 3, 50, none, 0, some 1, 2⟩ : Detector 1) 1
          ([fun _ => 1, fun _ => 9] : List (Vec 1)))
        (projCov0 1 1 1
          (⟨25, 1, -1, 3, 50, none, 0, some 1, 2⟩ : Detector 1).C) 0).det| ∧
    (invLoop 1
        (effN 1 (⟨25, 1, -1, 3, 50, none, 0, some 1, 2⟩ : Detector 1) : ℚ)
        (callB 1 1 (⟨25, 1, -1, 3, 50, none, 0, some 1, 2⟩ : Detector 1) 1
          ([fun _ => 1, fun _ => 9] : List (Vec 1)))
        (projCov0 1 1 1
          (⟨25, 1, -1, 3, 50, none, 0, some 1, 2⟩ : Detector 1).C)
        (List.length ([fun _ => 1, fun _ => 9] : List (Vec 1)))).getD 1 0
      = (projCovSeq 1
          (effN 1 (⟨25, 1, -1, 3, 50, none, 0, some 1, 2⟩ : Detector 1) : ℚ)
          (callB 1 1 (⟨25, 1, -1, 3, 50, none, 0, some 1, 2⟩ : Detector 1) 1
            ([fun _ => 1, fun _ => 9] : List (Vec 1)))
          (projCov0 1 1 1
            (⟨25, 1, -1, 3, 50, none, 0, some 1, 2⟩ : Detector 1).C) 1)⁻¹ := by
  have hdet0 : epsQ < |(projCovSeq 1
      (effN 1 (⟨25, 1, -1, 3, 50, none, 0, some 1, 2⟩ : Detector 1) : ℚ)
      (callB 1 1 (⟨25, 1, -1, 3, 50, none, 0, some 1, 2⟩ : Detector 1) 1
        ([fun _ => 1, fun _ => 9] : List (Vec 1)))
      (projCov0 1 1 1
        (⟨25, 1, -1, 3, 50, none, 0, some 1, 2⟩ : Detector 1).C) 0).det| := by
    norm_num [projCovSeq, projCov0, epsQ, Matrix.det_one,
      Matrix.transpose_one, Matrix.one_mul, Matrix.mul_one]
  refine ⟨hdet0, C3_incremental_inverse_refines_direct 1 1
    (⟨25, 1, -1, 3, 50, none, 0, some 1, 2⟩ : Detector 1) 1
    ([fun _ => 1, fun _ => 9] : List (Vec 1)) 0 1
    (fun j hj => absurd hj (Nat.not_lt_zero j)) hdet0
    (by norm_num [effN]) (Nat.zero_le 1) (by norm_num) ?_⟩
  intro j h1 h2
  have hj : j = 1 := by omega
  subst hj
  refine isUnit_iff_ne_zero.mpr ?_
  norm_num [projCovSeq, projCov0, callB, callU, clipBatch, meanAt, effN,
    Matrix.det_fin_one, Matrix.vecMulVec, Matrix.vecMul_one,
    Matrix.transpose_one, Matrix.one_mul, Matrix.mul_one]

/-- Claim C10: for a row processed while no seed inverse has yet been
produced (the determinant test failed at every row up to and including
it), the stored inverse is the zero matrix, the returned score is exactly
`0`, and — the threshold being positive — the row is labelled `0`
(non-outlier). -/
theorem C10_zero_inverse_before_seed (p k : ℕ) (sqrtQ : ℚ → ℚ)
    (s : Detector p) (V : Matrix (Fin p) (Fin k) ℚ) (X : List (Vec p))
    (i : ℕ) (hi : i < X.length)
    (hns : ∀ j, j ≤ i → ¬ epsQ < |(projCovSeq k (effN p s : ℚ)
        (callB p k s V X) (projCov0 p k V s.C) j).det|)
    (hth : 0 < s.threshold) :
    (invLoop k (effN p s : ℚ) (callB p k s V X) (projCov0 p k V s.C)
        X.length).getD i 0 = 0 ∧
    (processWith p k sqrtQ s V X).2.1.getD i 0 = 0 ∧
    (processWith p k sqrtQ s V X).2.2.getD i 0 = 0 := by
  have hzero : (invLoop k (effN p s : ℚ) (callB p k s V X)
      (projCov0 p k V s.C) X.length).getD i 0 = 0 := by
    rw [invLoop_getD k (effN p s : ℚ) (callB p k s V X) (projCov0 p k V s.C)
      X.length i hi, emitted,
      invRun_preSeed k (effN p s : ℚ) (callB p k s V X) (projCov0 p k V s.C)
        (i + 1) (fun j hj => hns j (Nat.lt_succ_iff.mp hj))]
    simp only
    rw [List.getD_eq_getElem?_getD, List.getElem?_replicate,
      if_pos (Nat.lt_succ_self i), Option.getD_some]
  have hs0 : callScore p k s V X i = 0 := by
    rw [callScore, hzero]
    simp [Matrix.zero_mulVec, Matrix.dotProduct_zero]
  refine ⟨hzero, ?_, ?_⟩
  · have hmap : (processWith p k sqrtQ s V X).2.1.getD i 0
        = callScore p k s V X i :=
      getD_map_range 0 (callScore p k s V X) X.length i hi
    rw [hmap, hs0]
  · have hmap : (processWith p k sqrtQ s V X).2.2.getD i 0
        = if s.threshold < callScore p k s V X i then 1 else 0 :=
      getD_map_range 0 _ X.length i hi
    rw [hmap, hs0, if_neg (by linarith)]

/-- Witness for `C10_zero_inverse_before_seed`: the first call of a fresh
1-feature detector (covariance still the integer-`0` sentinel) scores `0`
and labels the row a non-outlier. -/
theorem C10_zero_inverse_before_seed_witness :
    (¬ epsQ < |(projCovSeq 1
        (effN 1 (Detector.init 1 25 3 3 50 (-1)) : ℚ)
        (callB 1 1 (Detector.init 1 25 3 3 50 (-1)) 1 [fun _ => 3])
        (projCov0 1 1 1 (Detector.init 1 25 3 3 50 (-1)).C) 0).det|) ∧
    (processWith 1 1 id (Detector.init 1 25 3 3 50 (-1)) 1
        [fun _ => 3]).2.1.getD 0 0 = 0 ∧
    (processWith 1 1 id (Detector.init 1 25 3 3 50 (-1)) 1
        [fun _ => 3]).2.2.getD 0 0 = 0 := by
  have hdet : ¬ epsQ < |(projCovSeq 1
      (effN 1 (Detector.init 1 25 3 3 50 (-1)) : ℚ)
      (callB 1 1 (Detector.init 1 25 3 3 50 (-1)) 1 [fun _ => 3])
      (projCov0 1 1 1 (Detector.init 1 25 3 3 50 (-1)).C) 0).det| := by
    norm_num [projCovSeq, projCov0, Detector.init, epsQ, Matrix.det_fin_one]
  have h := C10_zero_inverse_before_seed 1 1 id
    (Detector.init 1 25 3 3 50 (-1)) 1 [fun _ => 3] 0 (by decide)
    (fun j hj => by
      have hj0 : j = 0 := Nat.le_zero.mp hj
      subst hj0
      exact hdet)
    (by norm_num [Detector.init])
  exact ⟨hdet, h.2.1, h.2.2⟩

end Mahalanobis
